import Mathlib

/-!
Shallow embedding of the "Dynamic re-routing" grid puzzle of
`src/test1.py` (the only algorithmic component of the repository), together
with proofs of the specified behavioral claims.

The Python code keeps the puzzle state in the Streamlit session dictionary
(`dr_warehouse`, `dr_retailers`, `dr_route`, `dr_visited`, `dr_phase`,
`dr_closed`, `dr_initial_dist`, `dr_reroute_dist`); here it is an explicit
`PuzzleState` record.  User actions (the four direction buttons, Undo,
Reset, the completion check that runs after every rerun, and the
"Start a new problem" button) become a `step` function on `PuzzleState`.
-/

namespace SCM

/-!
Model of the external PRNG (Python's `random` module).  The game code only
calls `random.seed(42)` and `random.sample(population, k)`; we model the
generator state explicitly and thread it through the two operations that
consume randomness (`init_problem`, `make_closures`).  The concrete word
mixing is a 64-bit LCG standing in for the Mersenne Twister: every claim
under verification depends only on (a) the generator being a deterministic
function of its state, so that re-seeding with the fixed seed 42 makes
`init_problem` a constant function, and (b) `randbelowVal r n < n` for
`n > 0`.  `sample` follows CPython's pool algorithm for `random.sample`
(the branch taken for the population sizes occurring here): pick index
`j < m` among the first `m` active pool slots, output `pool[j]`, move the
last active element into slot `j`, shrink the active region.
-/

structure Rng where
  state : Nat
deriving DecidableEq

def seedRng (n : Nat) : Rng :=
  ⟨(n * 2862933555777941757 + 3037000493) % 18446744073709551616⟩

def nextRng (r : Rng) : Rng :=
  ⟨(r.state * 6364136223846793005 + 1442695040888963407) % 18446744073709551616⟩

def randbelowVal (r : Rng) (n : Nat) : Nat :=
  (r.state / 8589934592) % n

/-- The pool algorithm of CPython's `random.sample`, drawing `k` elements. -/
def sampleAux {α : Type} [Inhabited α] : Rng → List α → Nat → List α × Rng
  | r, _, 0 => ([], r)
  | r, pool, k + 1 =>
    let j := randbelowVal r pool.length
    let x := pool.getD j default
    let pool1 := (pool.set j (pool.getD (pool.length - 1) default)).dropLast
    let rest := sampleAux (nextRng r) pool1 k
    (x :: rest.1, rest.2)

/-- Python `random.sample(population, k)`: raises `ValueError` (modelled as `none`)
when `k` exceeds the population size, otherwise runs the pool algorithm. -/
def sample {α : Type} [Inhabited α] (r : Rng) (population : List α) (k : Nat) :
    Option (List α × Rng) :=
  if k ≤ population.length then some (sampleAux r population k) else none

/-! Grid model (`GRID = 5`, `NUM_RETAILERS = 12`). -/

def GRID : Nat := 5

def NUM_RETAILERS : Nat := 12

abbrev Coord := Int × Int

abbrev Edge := Coord × Coord

/-- Python's `<` on int pairs (lexicographic), used by `sorted`. -/
def coordLt (a b : Coord) : Bool :=
  a.1 < b.1 || (a.1 == b.1 && a.2 < b.2)

/-- Source `edge(a, b) = tuple(sorted([a, b]))`: the canonical (order-independent)
name of the link between `a` and `b`.  `sorted` is stable, so the pair is
swapped exactly when `b < a`. -/
def edge (a b : Coord) : Edge :=
  if coordLt b a then (b, a) else (a, b)

/-- Source `route_distance(r) = max(0, len(r) - 1)`. -/
def route_distance (r : List Coord) : Int :=
  max 0 ((r.length : Int) - 1)

/-- Source check `0 <= c[0] < GRID and 0 <= c[1] < GRID`: the bounds check of
`attempt_move`. -/
def inBounds (c : Coord) : Prop :=
  0 ≤ c.1 ∧ c.1 < (GRID : Int) ∧ 0 ≤ c.2 ∧ c.2 < (GRID : Int)

instance : DecidablePred inBounds := fun c => by
  unfold inBounds; infer_instance

/-- Two cells joined by a grid link: exactly one axis differs, by exactly 1. -/
def adjacent (a b : Coord) : Prop :=
  (a.1 = b.1 ∧ (a.2 = b.2 + 1 ∨ a.2 + 1 = b.2)) ∨
  (a.2 = b.2 ∧ (a.1 = b.1 + 1 ∨ a.1 + 1 = b.1))

/-- Source `[(i, j) for i in range(GRID) for j in range(GRID)]`. -/
def allNodes : List Coord :=
  (List.range GRID).flatMap (fun i => (List.range GRID).map (fun j => ((i : Int), (j : Int))))

/-- Source `init_problem()`: re-seeds the global generator with the fixed seed 42,
puts the warehouse at the grid centre `(GRID // 2, GRID // 2)`, removes it
from the cell list, and samples `NUM_RETAILERS` retailer cells.  The
incoming generator state `r` is discarded by the re-seeding.  (`none` from
`sample` is impossible here, since `12 ≤ 24`; the fallback branch mirrors
`random.sample` raising, and is proved unreachable.) -/
def init_problem (r : Rng) : (Coord × List Coord) × Rng :=
  let r1 := seedRng 42
  let warehouse : Coord := (((GRID / 2 : Nat) : Int), ((GRID / 2 : Nat) : Int))
  let all_nodes := allNodes.erase warehouse
  match sample r1 all_nodes NUM_RETAILERS with
  | some (retailers, r2) => ((warehouse, retailers), r2)
  | none => ((warehouse, []), r1)

/-- Source `[edge(route[i], route[i+1]) for i in range(len(route) - 1)]`. -/
def edgesOf : List Coord → List Edge
  | a :: b :: rest => edge a b :: edgesOf (b :: rest)
  | _ => []

/-- Walk a list keeping each element only at its first occurrence; `seen`
holds the elements already emitted. -/
def dedupFirstGo {α : Type} [DecidableEq α] : List α → List α → List α
  | [], _ => []
  | a :: l, seen => if a ∈ seen then dedupFirstGo l seen else a :: dedupFirstGo l (a :: seen)

/-- Python `list(dict.fromkeys(l))`: de-duplication keeping first occurrences. -/
def dedupFirst {α : Type} [DecidableEq α] (l : List α) : List α :=
  dedupFirstGo l []

/-- Source `make_closures(route)`: list the traversed edges, de-duplicate keeping
first occurrences, and sample `k = min(4, max(2, len(unique_edges) // 5))`
of them without replacement. -/
def make_closures (r : Rng) (route : List Coord) : Option (Finset Edge × Rng) :=
  let edges_on_route := edgesOf route
  let unique_edges := dedupFirst edges_on_route
  let k := min 4 (max 2 (unique_edges.length / 5))
  match sample r unique_edges k with
  | some p => some (p.1.toFinset, p.2)
  | none => none

/-! The puzzle state and the user actions. -/

inductive Phase
  | initial
  | reroute
deriving DecidableEq

structure PuzzleState where
  warehouse : Coord
  retailers : List Coord
  route : List Coord
  visited : Finset Coord
  phase : Phase
  closed : Finset Edge
  initialDist : Option Int
  rerouteDist : Option Int
  rng : Rng
deriving DecidableEq

/-- Source `current = route[-1]` (the route is never empty in the program; the
default is irrelevant there). -/
def current (s : PuzzleState) : Coord :=
  s.route.getLastD (0, 0)

inductive MoveError
  | OutOfBounds
  | EdgeClosed
deriving DecidableEq

/-- Source `attempt_move(dx, dy)`: compute `nxt = current + (dx, dy)`; warn and
leave the state alone when `nxt` is off the grid; during the `reroute`
phase additionally reject a move across a closed edge; otherwise append
`nxt` to the route and record it as visited when it is a retailer. -/
def attempt_move (s : PuzzleState) (dx dy : Int) : Except MoveError PuzzleState :=
  let c := current s
  let nxt : Coord := (c.1 + dx, c.2 + dy)
  if ¬ inBounds nxt then .error .OutOfBounds
  else if s.phase = .reroute ∧ edge c nxt ∈ s.closed then .error .EdgeClosed
  else .ok { s with
    route := s.route ++ [nxt]
    visited := if nxt ∈ s.retailers then insert nxt s.visited else s.visited }

/-- The "Undo last move" handler: when the route has more than one node,
drop the last one and recompute the visited set as
`{n for n in route if n in retailers}`. -/
def undo (s : PuzzleState) : PuzzleState :=
  if 1 < s.route.length then
    let r := s.route.dropLast
    { s with route := r, visited := (r.filter (fun c => decide (c ∈ s.retailers))).toFinset }
  else s

/-- The "Reset route" handler: route back to `[warehouse]`, visited set
emptied; nothing else is touched. -/
def reset (s : PuzzleState) : PuzzleState :=
  { s with route := [s.warehouse], visited := ∅ }

/-- Source `is_complete_tour()`: all `NUM_RETAILERS` retailers visited, currently
at the warehouse, and at least one move made. -/
def is_complete_tour (s : PuzzleState) : Bool :=
  decide (s.visited.card = NUM_RETAILERS ∧ current s = s.warehouse ∧ 1 < s.route.length)

/-- Source `deviation = ((dist2 - dist1) / dist1) * 100 if dist1 else 0`, with the
exact rational value standing for Python's float arithmetic. -/
def deviation (dist1 dist2 : Int) : ℚ :=
  if dist1 ≠ 0 then (((dist2 - dist1 : Int) : ℚ) / (dist1 : ℚ)) * 100 else 0

inductive Direction
  | up
  | down
  | left
  | right
deriving DecidableEq

/-- The unit offsets bound to the four movement buttons. -/
def offset : Direction → Int × Int
  | .up => (0, 1)
  | .down => (0, -1)
  | .left => (-1, 0)
  | .right => (1, 0)

inductive Action
  | move (d : Direction)
  | undoMove
  | resetRoute
  | checkComplete
  | newProblem

/-- One user action processed by the page script.  A rejected move leaves
the state untouched (the Python handler returns before mutating anything).
`checkComplete` is the completion logic that runs on every rerun: on a
completed `initial` tour it records the distance, generates the closures,
switches to `reroute` and restarts the route at the warehouse; a completed
`reroute` tour only displays results.  `newProblem` (offered only once the
reroute tour is complete) rebuilds the whole instance via `init_problem`. -/
def step (s : PuzzleState) : Action → PuzzleState
  | .move d => ((attempt_move s (offset d).1 (offset d).2).toOption).getD s
  | .undoMove => undo s
  | .resetRoute => reset s
  | .checkComplete =>
      if is_complete_tour s then
        match s.phase with
        | .initial =>
          match make_closures s.rng s.route with
          | some p =>
            { s with initialDist := some (route_distance s.route)
                     closed := p.1
                     phase := .reroute
                     route := [s.warehouse]
                     visited := ∅
                     rng := p.2 }
          | none => s
        | .reroute => s
      else s
  | .newProblem =>
      if is_complete_tour s ∧ s.phase = .reroute then
        let p := init_problem s.rng
        { warehouse := p.1.1, retailers := p.1.2, route := [p.1.1], visited := ∅,
          phase := .initial, closed := ∅, initialDist := none, rerouteDist := none,
          rng := p.2 }
      else s

/-- The candidate coordinate `nxt = current + offset(d)` of a directional
move request. -/
def nextCoord (s : PuzzleState) (d : Direction) : Coord :=
  ((current s).1 + (offset d).1, (current s).2 + (offset d).2)

/-- The state produced by a successful move: the candidate cell is appended
to the route and recorded as visited exactly when it is a retailer. -/
def moveState (s : PuzzleState) (d : Direction) : PuzzleState :=
  { s with
    route := s.route ++ [nextCoord s d]
    visited := if nextCoord s d ∈ s.retailers then insert (nextCoord s d) s.visited
               else s.visited }

/-- The set of endpoints of a list of edges (proof-side helper for counting
the distinct cells a route can touch). -/
def endpointFinset (es : List Edge) : Finset Coord :=
  es.foldr (fun e acc => insert e.1 (insert e.2 acc)) ∅

/-- The session-state initialisation block of the page. -/
def initState (r : Rng) : PuzzleState :=
  let p := init_problem r
  { warehouse := p.1.1, retailers := p.1.2, route := [p.1.1], visited := ∅,
    phase := .initial, closed := ∅, initialDist := none, rerouteDist := none,
    rng := p.2 }

/-- The state after a sequence of user actions on a fresh session. -/
def runGame (r : Rng) (acts : List Action) : PuzzleState :=
  acts.foldl step (initState r)

/-- The route/visited invariant maintained by every action, strengthened
with the auxiliary facts needed for its preservation proof: the visited set
is exactly the retailers on the route, the route starts at the warehouse,
consecutive cells are adjacent and in bounds, during `reroute` no traversed
edge is closed, every route cell is in bounds, and the warehouse itself is
an in-bounds non-retailer cell. -/
def InvAll (s : PuzzleState) : Prop :=
  s.visited = (s.route.filter (fun c => decide (c ∈ s.retailers))).toFinset ∧
  s.route.head? = some s.warehouse ∧
  List.Chain' (fun a b => adjacent a b ∧ inBounds a ∧ inBounds b) s.route ∧
  (s.phase = Phase.initial ∨ List.Chain' (fun a b => edge a b ∉ s.closed) s.route) ∧
  (∀ c ∈ s.route, inBounds c) ∧
  inBounds s.warehouse ∧
  s.warehouse ∉ s.retailers

/-- A three-node demonstration route (two distinct edges). -/
def demoSmallRoute : List Coord :=
  [((2 : Int), (2 : Int)), ((2 : Int), (3 : Int)), ((2 : Int), (4 : Int))]

/-- A serpentine demonstration tour from the warehouse that walks every
cell of the grid and returns to the warehouse (hence visits every retailer
of any instance). -/
def demoRoute : List Coord :=
  [((2 : Int), (2 : Int)), (2, 1), (2, 0), (1, 0), (0, 0), (0, 1), (0, 2), (0, 3), (0, 4),
   (1, 4), (1, 3), (1, 2), (1, 1), (1, 0), (2, 0), (2, 1), (2, 2), (2, 3), (2, 4),
   (3, 4), (3, 3), (3, 2), (3, 1), (3, 0), (4, 0), (4, 1), (4, 2), (4, 3), (4, 4),
   (3, 4), (2, 4), (2, 3), (2, 2)]

/-- A concrete state that has just completed an initial tour along
`demoRoute`. -/
def demoState : PuzzleState :=
  { warehouse := ((2 : Int), (2 : Int))
    retailers := (init_problem ⟨0⟩).1.2
    route := demoRoute
    visited := (demoRoute.filter (fun c => decide (c ∈ (init_problem ⟨0⟩).1.2))).toFinset
    phase := Phase.initial
    closed := ∅
    initialDist := none
    rerouteDist := none
    rng := ⟨0⟩ }

/-- A concrete state that has just completed a reroute tour. -/
def rerouteDoneState : PuzzleState :=
  { warehouse := (init_problem ⟨0⟩).1.1
    retailers := (init_problem ⟨0⟩).1.2
    route := [((2 : Int), (2 : Int)), ((2 : Int), (3 : Int)), ((2 : Int), (2 : Int))]
    visited := ((init_problem ⟨0⟩).1.2).toFinset
    phase := Phase.reroute
    closed := ∅
    initialDist := some 10
    rerouteDist := none
    rng := ⟨0⟩ }

/-! ## Helper lemmas -/

theorem poolStep_perm {α : Type} [Inhabited α] :
    ∀ (pool : List α) (j : Nat), j < pool.length →
      ((pool.set j (pool.getD (pool.length - 1) default)).dropLast).Perm (pool.eraseIdx j)
  | [], j, h => absurd h (by simp)
  | a :: rest, 0, _ => by
    cases rest with
    | nil => simp
    | cons b t =>
      have hne : (b :: t) ≠ ([] : List α) := by simp
      have hz : (a :: b :: t).getD ((a :: b :: t).length - 1) default
          = (b :: t).getLast hne := by
        simp only [List.length_cons, Nat.add_sub_cancel, List.getD_cons_succ]
        rw [List.getD_eq_getElem _ _ (by simp), List.getLast_eq_getElem]
        simp
      rw [hz, List.set_cons_zero, List.eraseIdx_cons_zero,
        List.dropLast_cons_of_ne_nil hne]
      have hsplit := List.dropLast_append_getLast hne
      have hp : (((b :: t).getLast hne :: (b :: t).dropLast)).Perm
          ((b :: t).dropLast ++ [(b :: t).getLast hne]) :=
        @List.perm_append_comm _ [(b :: t).getLast hne] (b :: t).dropLast
      exact hp.trans (by rw [hsplit])
  | a :: rest, j + 1, h => by
    have hj : j < rest.length := by
      simpa using Nat.lt_of_succ_lt_succ (by simpa using h)
    have hrne : rest ≠ [] := by
      intro hcon; rw [hcon] at hj; simp at hj
    have hsetne : rest.set j ((a :: rest).getD ((a :: rest).length - 1) default) ≠ [] := by
      intro hcon
      have := congrArg List.length hcon
      simp at this
      rw [this] at hj; simp at hj
    have hz : (a :: rest).getD ((a :: rest).length - 1) default
        = rest.getD (rest.length - 1) default := by
      have : (a :: rest).length - 1 = rest.length := by simp
      rw [this]
      cases rest with
      | nil => exact absurd rfl hrne
      | cons b t => simp only [List.length_cons, List.getD_cons_succ, Nat.add_sub_cancel]
    rw [List.set_cons_succ, List.eraseIdx_cons_succ,
      List.dropLast_cons_of_ne_nil hsetne, hz]
    exact (poolStep_perm rest j hj).cons a

theorem getD_not_mem_eraseIdx {α : Type} [Inhabited α] :
    ∀ (pool : List α), pool.Nodup → ∀ (j : Nat), j < pool.length →
      pool.getD j default ∉ pool.eraseIdx j
  | [], _, j, h => absurd h (by simp)
  | a :: rest, hnd, 0, _ => by
    simp only [List.getD_cons_zero, List.eraseIdx_cons_zero]
    exact (List.nodup_cons.mp hnd).1
  | a :: rest, hnd, j + 1, h => by
    have hj : j < rest.length := by
      simpa using Nat.lt_of_succ_lt_succ (by simpa using h)
    simp only [List.getD_cons_succ, List.eraseIdx_cons_succ, List.mem_cons]
    push_neg
    constructor
    · intro hcon
      have hmem : rest.getD j default ∈ rest := by
        rw [List.getD_eq_getElem _ _ hj]; exact List.getElem_mem hj
      rw [hcon] at hmem
      exact (List.nodup_cons.mp hnd).1 hmem
    · exact getD_not_mem_eraseIdx rest (List.nodup_cons.mp hnd).2 j hj

/-- The pool algorithm draws exactly `k` pairwise-distinct elements of the
population whenever `k` does not exceed the (duplicate-free) population. -/
theorem sampleAux_spec {α : Type} [Inhabited α] :
    ∀ (k : Nat) (r : Rng) (pool : List α), pool.Nodup → k ≤ pool.length →
      (sampleAux r pool k).1.length = k ∧ (sampleAux r pool k).1.Nodup ∧
        ∀ x ∈ (sampleAux r pool k).1, x ∈ pool := by
  intro k
  induction k with
  | zero => intro r pool _ _; simp [sampleAux]
  | succ k ih =>
    intro r pool hnd hk
    have hpos : 0 < pool.length := Nat.lt_of_lt_of_le (Nat.succ_pos k) hk
    have hj : randbelowVal r pool.length < pool.length := Nat.mod_lt _ hpos
    have hperm := poolStep_perm pool (randbelowVal r pool.length) hj
    have hlen1 : ((pool.set (randbelowVal r pool.length)
        (pool.getD (pool.length - 1) default)).dropLast).length = pool.length - 1 := by
      rw [hperm.length_eq, List.length_eraseIdx_of_lt hj]
    have hnd1 : ((pool.set (randbelowVal r pool.length)
        (pool.getD (pool.length - 1) default)).dropLast).Nodup :=
      hperm.nodup_iff.mpr (hnd.eraseIdx _)
    have hk1 : k ≤ ((pool.set (randbelowVal r pool.length)
        (pool.getD (pool.length - 1) default)).dropLast).length := by
      rw [hlen1]; omega
    have ihr := ih (nextRng r) _ hnd1 hk1
    have hxmem : pool.getD (randbelowVal r pool.length) default ∈ pool := by
      rw [List.getD_eq_getElem _ _ hj]; exact List.getElem_mem hj
    have hxnot : pool.getD (randbelowVal r pool.length) default ∉
        ((pool.set (randbelowVal r pool.length)
          (pool.getD (pool.length - 1) default)).dropLast) := by
      rw [hperm.mem_iff]
      exact getD_not_mem_eraseIdx pool hnd _ hj
    refine ⟨?_, ?_, ?_⟩
    · simp only [sampleAux, List.length_cons]
      rw [ihr.1]
    · simp only [sampleAux]
      exact List.nodup_cons.mpr ⟨fun hc => hxnot (ihr.2.2 _ hc), ihr.2.1⟩
    · simp only [sampleAux, List.mem_cons]
      rintro x (rfl | hx)
      · exact hxmem
      · exact List.mem_of_mem_eraseIdx (hperm.mem_iff.mp (ihr.2.2 _ hx))

theorem sample_eq_some {α : Type} [Inhabited α] (r : Rng) (pop : List α) (k : Nat)
    (h : k ≤ pop.length) : sample r pop k = some (sampleAux r pop k) := by
  simp [sample, h]

theorem mem_dedupFirstGo {α : Type} [DecidableEq α] :
    ∀ (l seen : List α) (a : α), a ∈ dedupFirstGo l seen ↔ a ∈ l ∧ a ∉ seen := by
  intro l
  induction l with
  | nil => intro seen a; simp [dedupFirstGo]
  | cons b l ih =>
    intro seen a
    rw [dedupFirstGo]
    by_cases hb : b ∈ seen
    · rw [if_pos hb, ih seen a]
      simp only [List.mem_cons]
      constructor
      · rintro ⟨h1, h2⟩; exact ⟨Or.inr h1, h2⟩
      · rintro ⟨(rfl | h1), h2⟩
        · exact absurd hb h2
        · exact ⟨h1, h2⟩
    · rw [if_neg hb]
      simp only [List.mem_cons, ih (b :: seen) a, List.mem_cons]
      by_cases hab : a = b
      · subst hab; simp [hb]
      · simp [hab]

theorem mem_dedupFirst {α : Type} [DecidableEq α] (l : List α) (a : α) :
    a ∈ dedupFirst l ↔ a ∈ l := by
  rw [dedupFirst, mem_dedupFirstGo]
  simp

theorem nodup_dedupFirstGo {α : Type} [DecidableEq α] :
    ∀ (l seen : List α), (dedupFirstGo l seen).Nodup := by
  intro l
  induction l with
  | nil => intro seen; simp [dedupFirstGo]
  | cons b l ih =>
    intro seen
    rw [dedupFirstGo]
    by_cases hb : b ∈ seen
    · rw [if_pos hb]; exact ih seen
    · rw [if_neg hb]
      refine List.nodup_cons.mpr ⟨?_, ih (b :: seen)⟩
      intro hmem
      have := (mem_dedupFirstGo l (b :: seen) b).mp hmem
      simp at this

theorem nodup_dedupFirst {α : Type} [DecidableEq α] (l : List α) :
    (dedupFirst l).Nodup :=
  nodup_dedupFirstGo l []

theorem mem_endpointFinset {x : Coord} :
    ∀ {es : List Edge}, x ∈ endpointFinset es ↔ ∃ e ∈ es, x = e.1 ∨ x = e.2 := by
  intro es
  induction es with
  | nil => simp [endpointFinset]
  | cons e t ih =>
    simp only [endpointFinset, List.foldr_cons, Finset.mem_insert, List.mem_cons]
    rw [show (List.foldr (fun e acc => insert e.1 (insert e.2 acc)) ∅ t) =
      endpointFinset t from rfl] at *
    constructor
    · rintro (h | h | h)
      · exact ⟨e, Or.inl rfl, Or.inl h⟩
      · exact ⟨e, Or.inl rfl, Or.inr h⟩
      · obtain ⟨e', he', hx⟩ := ih.mp h
        exact ⟨e', Or.inr he', hx⟩
    · rintro ⟨e', (rfl | he'), hx⟩
      · rcases hx with h | h
        · exact Or.inl h
        · exact Or.inr (Or.inl h)
      · exact Or.inr (Or.inr (ih.mpr ⟨e', he', hx⟩))

theorem card_endpointFinset_le : ∀ (es : List Edge),
    (endpointFinset es).card ≤ 2 * es.length := by
  intro es
  induction es with
  | nil => simp [endpointFinset]
  | cons e t ih =>
    have h1 : (endpointFinset (e :: t)).card ≤ (insert e.2 (endpointFinset t)).card + 1 := by
      simpa [endpointFinset] using Finset.card_insert_le e.1 (insert e.2 (endpointFinset t))
    have h2 : (insert e.2 (endpointFinset t)).card ≤ (endpointFinset t).card + 1 :=
      Finset.card_insert_le _ _
    simp only [List.length_cons]
    omega

theorem edge_eq_or (a b : Coord) : edge a b = (a, b) ∨ edge a b = (b, a) := by
  unfold edge
  split
  · exact Or.inr rfl
  · exact Or.inl rfl

theorem fst_mem_of_edge (a b : Coord) : a = (edge a b).1 ∨ a = (edge a b).2 := by
  rcases edge_eq_or a b with h | h <;> rw [h]
  · exact Or.inl rfl
  · exact Or.inr rfl

theorem snd_mem_of_edge (a b : Coord) : b = (edge a b).1 ∨ b = (edge a b).2 := by
  rcases edge_eq_or a b with h | h <;> rw [h]
  · exact Or.inr rfl
  · exact Or.inl rfl

theorem chain'_dropLast {α : Type} {R : α → α → Prop} {l : List α}
    (h : List.Chain' R l) : List.Chain' R l.dropLast := by
  by_cases hne : l = []
  · subst hne; simp
  · rw [← List.dropLast_concat_getLast hne] at h
    exact (List.chain'_append.mp h).1

theorem head?_dropLast {α : Type} {l : List α} (h : 1 < l.length) :
    l.dropLast.head? = l.head? := by
  cases l with
  | nil => simp at h
  | cons a t =>
    cases t with
    | nil => simp at h
    | cons b t' => rw [List.dropLast_cons_of_ne_nil (by simp)]; rfl

theorem current_eq_getLast {s : PuzzleState} (h : s.route ≠ []) :
    s.route.getLast? = some (current s) := by
  rw [current, List.getLastD_eq_getLast?, List.getLast?_eq_getLast _ h]
  rfl

theorem route_toFinset_subset :
    ∀ (a : Coord) (l : List Coord),
      (a :: l).toFinset ⊆ insert a (endpointFinset (edgesOf (a :: l))) := by
  intro a l
  induction l generalizing a with
  | nil => intro c hc; simp at hc; simp [hc]
  | cons b t ih =>
    intro c hc
    simp only [List.toFinset_cons, Finset.mem_insert, List.mem_toFinset] at hc
    rcases hc with rfl | hc
    · exact Finset.mem_insert_self _ _
    · have hc' : c ∈ insert b (endpointFinset (edgesOf (b :: t))) :=
        ih b (by simpa using hc)
      have hsub : endpointFinset (edgesOf (b :: t)) ⊆
          endpointFinset (edgesOf (a :: b :: t)) := by
        intro x hx
        rw [mem_endpointFinset] at hx ⊢
        obtain ⟨e, he, hxe⟩ := hx
        exact ⟨e, by simp [edgesOf, he], hxe⟩
      rcases Finset.mem_insert.mp hc' with rfl | hc''
      · refine Finset.mem_insert_of_mem ?_
        rw [mem_endpointFinset]
        refine ⟨edge a c, by simp [edgesOf], ?_⟩
        exact snd_mem_of_edge a c
      · exact Finset.mem_insert_of_mem (hsub hc'')

theorem endpointFinset_dedupFirst (es : List Edge) :
    endpointFinset es = endpointFinset (dedupFirst es) := by
  ext x
  rw [mem_endpointFinset, mem_endpointFinset]
  constructor
  · rintro ⟨e, he, hx⟩
    exact ⟨e, (mem_dedupFirst es e).mpr he, hx⟩
  · rintro ⟨e, he, hx⟩
    exact ⟨e, (mem_dedupFirst es e).mp he, hx⟩

/-- The concrete problem instance is well-formed: warehouse at the centre,
12 pairwise-distinct in-bounds retailer cells, warehouse not among them.
(`init_problem` ignores its generator argument, so this is a single
kernel computation.) -/
theorem init_problem_props (r : Rng) :
    (init_problem r).1.1 = ((2 : Int), (2 : Int)) ∧
    ((init_problem r).1.2).length = NUM_RETAILERS ∧
    ((init_problem r).1.2).Nodup ∧
    (init_problem r).1.1 ∉ (init_problem r).1.2 ∧
    ∀ c ∈ (init_problem r).1.2, inBounds c := by
  have h : init_problem r = init_problem ⟨0⟩ := rfl
  rw [h]
  refine ⟨by decide, by decide, by decide, by decide, ?_⟩
  intro c hc
  fin_cases hc <;> decide

theorem is_complete_tour_iff {s : PuzzleState} :
    is_complete_tour s = true ↔
      s.visited.card = NUM_RETAILERS ∧ current s = s.warehouse ∧ 1 < s.route.length := by
  simp [is_complete_tour]

theorem current_mem_route {s : PuzzleState} (h : s.route ≠ []) :
    current s ∈ s.route := by
  rw [current, List.getLastD_eq_getLast?, List.getLast?_eq_getLast _ h]
  simp

theorem attempt_move_eq (s : PuzzleState) (dx dy : Int) :
    attempt_move s dx dy =
      (if ¬ inBounds ((current s).1 + dx, (current s).2 + dy) then
        Except.error MoveError.OutOfBounds
      else if s.phase = Phase.reroute ∧
          edge (current s) ((current s).1 + dx, (current s).2 + dy) ∈ s.closed then
        Except.error MoveError.EdgeClosed
      else Except.ok { s with
        route := s.route ++ [((current s).1 + dx, (current s).2 + dy)]
        visited := if ((current s).1 + dx, (current s).2 + dy) ∈ s.retailers then
            insert ((current s).1 + dx, (current s).2 + dy) s.visited
          else s.visited }) := rfl

theorem visited_append_eq {route ret : List Coord} {v : Finset Coord} (nxt : Coord)
    (hv : v = (route.filter (fun c => decide (c ∈ ret))).toFinset) :
    (if nxt ∈ ret then insert nxt v else v)
      = ((route ++ [nxt]).filter (fun c => decide (c ∈ ret))).toFinset := by
  subst hv
  rw [List.filter_append]
  by_cases hr : nxt ∈ ret
  · rw [if_pos hr]
    have hone : List.filter (fun c => decide (c ∈ ret)) [nxt] = [nxt] := by simp [hr]
    rw [hone]
    ext y
    simp only [Finset.mem_insert, List.mem_toFinset, List.mem_filter, List.mem_append,
      List.mem_singleton, decide_eq_true_eq]
    tauto
  · rw [if_neg hr]
    have hzero : List.filter (fun c => decide (c ∈ ret)) [nxt] = [] := by simp [hr]
    rw [hzero, List.append_nil]

theorem invAll_ok_helper (s : PuzzleState) (nxt : Coord)
    (hvis : s.visited = (s.route.filter (fun c => decide (c ∈ s.retailers))).toFinset)
    (hhead : s.route.head? = some s.warehouse)
    (hchain : List.Chain' (fun a b => adjacent a b ∧ inBounds a ∧ inBounds b) s.route)
    (hclosed : s.phase = Phase.initial ∨
      List.Chain' (fun a b => edge a b ∉ s.closed) s.route)
    (hmem : ∀ c ∈ s.route, inBounds c)
    (hwb : inBounds s.warehouse) (hwr : s.warehouse ∉ s.retailers)
    (hb : inBounds nxt) (hadj : adjacent (current s) nxt)
    (hcl : s.phase = Phase.reroute → edge (current s) nxt ∉ s.closed) :
    InvAll { s with
      route := s.route ++ [nxt]
      visited := if nxt ∈ s.retailers then insert nxt s.visited else s.visited } := by
  have hne : s.route ≠ [] := by
    intro hcon; rw [hcon] at hhead; simp at hhead
  have hA : (if nxt ∈ s.retailers then insert nxt s.visited else s.visited)
      = ((s.route ++ [nxt]).filter (fun c => decide (c ∈ s.retailers))).toFinset :=
    visited_append_eq nxt hvis
  have hB : (s.route ++ [nxt]).head? = some s.warehouse := by
    rw [List.head?_append, hhead]; rfl
  have hC : List.Chain' (fun a b => adjacent a b ∧ inBounds a ∧ inBounds b)
      (s.route ++ [nxt]) := by
    refine List.chain'_append.mpr ⟨hchain, List.chain'_singleton _, ?_⟩
    intro x hx y hy
    rw [current_eq_getLast hne] at hx
    simp only [Option.mem_def, Option.some.injEq] at hx
    simp only [List.head?_cons, Option.mem_def, Option.some.injEq] at hy
    subst hx; subst hy
    exact ⟨hadj, hmem _ (current_mem_route hne), hb⟩
  have hD : s.phase = Phase.initial ∨
      List.Chain' (fun a b => edge a b ∉ s.closed) (s.route ++ [nxt]) := by
    cases hsp : s.phase with
    | initial => exact Or.inl rfl
    | reroute =>
      rcases hclosed with hini | hcc
      · rw [hsp] at hini; exact absurd hini (by simp)
      · refine Or.inr (List.chain'_append.mpr ⟨hcc, List.chain'_singleton _, ?_⟩)
        intro x hx y hy
        rw [current_eq_getLast hne] at hx
        simp only [Option.mem_def, Option.some.injEq] at hx
        simp only [List.head?_cons, Option.mem_def, Option.some.injEq] at hy
        subst hx; subst hy
        exact hcl hsp
  have hE : ∀ c ∈ s.route ++ [nxt], inBounds c := by
    intro c hc
    rcases List.mem_append.mp hc with hc | hc
    · exact hmem c hc
    · simp only [List.mem_singleton] at hc
      subst hc; exact hb
  exact ⟨hA, hB, hC, hD, hE, hwb, hwr⟩

theorem invAll_step (s : PuzzleState) (a : Action) (h : InvAll s) : InvAll (step s a) := by
  obtain ⟨hvis, hhead, hchain, hclosed, hmem, hwb, hwr⟩ := h
  have hne : s.route ≠ [] := by
    intro hcon; rw [hcon] at hhead; simp at hhead
  cases a with
  | move d =>
    show InvAll ((attempt_move s (offset d).1 (offset d).2).toOption.getD s)
    rw [attempt_move_eq]
    by_cases h1 : inBounds ((current s).1 + (offset d).1, (current s).2 + (offset d).2)
    · rw [if_neg (not_not_intro h1)]
      by_cases h2 : s.phase = Phase.reroute ∧
          edge (current s) ((current s).1 + (offset d).1, (current s).2 + (offset d).2)
            ∈ s.closed
      · rw [if_pos h2]
        exact ⟨hvis, hhead, hchain, hclosed, hmem, hwb, hwr⟩
      · rw [if_neg h2]
        have hadj : adjacent (current s)
            ((current s).1 + (offset d).1, (current s).2 + (offset d).2) := by
          cases d <;> simp [offset, adjacent]
        have hcl : s.phase = Phase.reroute →
            edge (current s)
              ((current s).1 + (offset d).1, (current s).2 + (offset d).2) ∉ s.closed :=
          fun hp hm => h2 ⟨hp, hm⟩
        exact invAll_ok_helper s _ hvis hhead hchain hclosed hmem hwb hwr h1 hadj hcl
    · rw [if_pos h1]
      exact ⟨hvis, hhead, hchain, hclosed, hmem, hwb, hwr⟩
  | undoMove =>
    show InvAll (undo s)
    unfold undo
    split_ifs with hlen
    · refine ⟨rfl, ?_, chain'_dropLast hchain, ?_, ?_, hwb, hwr⟩
      · rw [head?_dropLast hlen]; exact hhead
      · rcases hclosed with hini | hcc
        · exact Or.inl hini
        · exact Or.inr (chain'_dropLast hcc)
      · intro c hc
        exact hmem c ((List.dropLast_sublist _).subset hc)
    · exact ⟨hvis, hhead, hchain, hclosed, hmem, hwb, hwr⟩
  | resetRoute =>
    show InvAll (reset s)
    have hA : (∅ : Finset Coord)
        = ([s.warehouse].filter (fun c => decide (c ∈ s.retailers))).toFinset := by
      simp [List.filter_cons, hwr]
    refine ⟨hA, rfl, List.chain'_singleton _, Or.inr (List.chain'_singleton _), ?_, hwb, hwr⟩
    intro c hc
    simp [reset] at hc
    subst hc; exact hwb
  | checkComplete =>
    show InvAll (step s Action.checkComplete)
    simp only [step]
    cases hic : is_complete_tour s with
    | false =>
      rw [if_neg (by decide)]
      exact ⟨hvis, hhead, hchain, hclosed, hmem, hwb, hwr⟩
    | true =>
      rw [if_pos rfl]
      cases hsp : s.phase with
      | initial =>
        cases hmc : make_closures s.rng s.route with
        | none => exact ⟨hvis, hhead, hchain, hclosed, hmem, hwb, hwr⟩
        | some p =>
          have hA : (∅ : Finset Coord)
              = ([s.warehouse].filter (fun c => decide (c ∈ s.retailers))).toFinset := by
            simp [List.filter_cons, hwr]
          refine ⟨hA, rfl, List.chain'_singleton _,
            Or.inr (List.chain'_singleton _), ?_, hwb, hwr⟩
          intro c hc
          simp only [List.mem_singleton] at hc
          subst hc; exact hwb
      | reroute => exact ⟨hvis, hhead, hchain, hclosed, hmem, hwb, hwr⟩
  | newProblem =>
    show InvAll (step s Action.newProblem)
    simp only [step]
    split_ifs with hg
    · obtain ⟨hp1, hp2, hp3, hp4, hp5⟩ := init_problem_props s.rng
      have hwb2 : inBounds (init_problem s.rng).1.1 := by
        rw [hp1]; decide
      have hA : (∅ : Finset Coord)
          = ([(init_problem s.rng).1.1].filter
              (fun c => decide (c ∈ (init_problem s.rng).1.2))).toFinset := by
        simp [List.filter_cons, hp4]
      refine ⟨hA, rfl, List.chain'_singleton _, Or.inl rfl, ?_, hwb2, hp4⟩
      intro c hc
      simp only [List.mem_singleton] at hc
      subst hc; exact hwb2
    · exact ⟨hvis, hhead, hchain, hclosed, hmem, hwb, hwr⟩

theorem invAll_initState (r : Rng) : InvAll (initState r) := by
  obtain ⟨hp1, hp2, hp3, hp4, hp5⟩ := init_problem_props r
  have hwb2 : inBounds (init_problem r).1.1 := by
    rw [hp1]; decide
  have hA : (∅ : Finset Coord)
      = ([(init_problem r).1.1].filter
          (fun c => decide (c ∈ (init_problem r).1.2))).toFinset := by
    simp [List.filter_cons, hp4]
  refine ⟨hA, rfl, List.chain'_singleton _, Or.inl rfl, ?_, hwb2, hp4⟩
  intro c hc
  simp [initState] at hc
  subst hc; exact hwb2

theorem invAll_runGame (r : Rng) (acts : List Action) : InvAll (runGame r acts) := by
  rw [runGame]
  have hgen : ∀ (l : List Action) (t : PuzzleState), InvAll t → InvAll (l.foldl step t) := by
    intro l
    induction l with
    | nil => intro t ht; exact ht
    | cons a l ih => intro t ht; exact ih _ (invAll_step t a ht)
  exact hgen acts _ (invAll_initState r)

/-! ## Claim theorems -/

/-- C1: for every state and direction, `attempt_move` computes
`nxt = current + offset` and (i) fails with `OutOfBounds` exactly when `nxt`
is off the 5×5 grid, (ii) fails with `EdgeClosed` exactly when `nxt` is in
bounds, the phase is `reroute` and the canonical edge `(current, nxt)` is
closed (so this error can never arise in the `initial` phase), (iii)
otherwise succeeds, appending `nxt` to the route and adding it to the
visited set exactly when it is a retailer; a failed move leaves the state
unchanged and a successful one produces exactly `moveState`. -/
theorem attempt_move_cases (s : PuzzleState) (d : Direction) :
    (attempt_move s (offset d).1 (offset d).2 = Except.error MoveError.OutOfBounds
      ↔ ¬ inBounds (nextCoord s d)) ∧
    (attempt_move s (offset d).1 (offset d).2 = Except.error MoveError.EdgeClosed
      ↔ inBounds (nextCoord s d) ∧ s.phase = Phase.reroute ∧
        edge (current s) (nextCoord s d) ∈ s.closed) ∧
    (attempt_move s (offset d).1 (offset d).2 = Except.ok (moveState s d)
      ↔ inBounds (nextCoord s d) ∧
        ¬ (s.phase = Phase.reroute ∧ edge (current s) (nextCoord s d) ∈ s.closed)) ∧
    (step s (Action.move d) = s ↔
      (¬ inBounds (nextCoord s d) ∨
        (s.phase = Phase.reroute ∧ edge (current s) (nextCoord s d) ∈ s.closed))) ∧
    (step s (Action.move d) = s ∨ step s (Action.move d) = moveState s d) := by
  have hstep : step s (Action.move d)
      = (attempt_move s (offset d).1 (offset d).2).toOption.getD s := rfl
  have hnc : (((current s).1 + (offset d).1, (current s).2 + (offset d).2) : Coord)
      = nextCoord s d := rfl
  rw [hstep, attempt_move_eq, hnc]
  by_cases h1 : inBounds (nextCoord s d)
  · rw [if_neg (not_not_intro h1)]
    by_cases h2 : s.phase = Phase.reroute ∧ edge (current s) (nextCoord s d) ∈ s.closed
    · rw [if_pos h2]
      refine ⟨by simp [h1], by simp [h1, h2.1, h2.2], by simp [h2], ?_, ?_⟩
      · simp only [Except.toOption, Option.getD_none]
        simp [h2]
      · exact Or.inl rfl
    · rw [if_neg h2]
      refine ⟨by simp [h1], by simp [h2], ?_, ?_, ?_⟩
      · constructor
        · intro _; exact ⟨h1, h2⟩
        · intro _
          simp only [Except.ok.injEq]
          rw [moveState]
      · constructor
        · intro heq
          have hlen := congrArg (fun t : PuzzleState => t.route.length) heq
          simp only [Except.toOption, Option.getD_some, List.length_append,
            List.length_singleton] at hlen
          omega
        · rintro (hcon | hcon)
          · exact absurd h1 hcon
          · exact absurd hcon h2
      · refine Or.inr ?_
        simp only [Except.toOption, Option.getD_some]
        rw [moveState]
  · rw [if_pos h1]
    refine ⟨by simp [h1], by simp [h1], by simp [h1], ?_, Or.inl rfl⟩
    simp only [Except.toOption, Option.getD_none]
    simp [h1]

/-- C4: the tour-completion test holds exactly when the number of visited
retailers equals the size of the (12-element) demand set, the current cell
is the warehouse, and the route is longer than a single node; in
particular the test is false for a route `[warehouse]`, whatever the
demand set (even an empty one). -/
theorem is_complete_tour_cases (s t : PuzzleState)
    (h : s.retailers.toFinset.card = NUM_RETAILERS) :
    (is_complete_tour s = true ↔
      s.visited.card = s.retailers.toFinset.card ∧ current s = s.warehouse ∧
        1 < s.route.length) ∧
    is_complete_tour { t with route := [t.warehouse] } = false := by
  constructor
  · rw [is_complete_tour_iff, h]
  · simp [is_complete_tour, current]

theorem is_complete_tour_cases_witness :
    ((initState ⟨0⟩).retailers.toFinset.card = NUM_RETAILERS) ∧
    ((is_complete_tour (initState ⟨0⟩) = true ↔
      (initState ⟨0⟩).visited.card = (initState ⟨0⟩).retailers.toFinset.card ∧
        current (initState ⟨0⟩) = (initState ⟨0⟩).warehouse ∧
        1 < (initState ⟨0⟩).route.length) ∧
    is_complete_tour { initState ⟨0⟩ with route := [(initState ⟨0⟩).warehouse] } = false) :=
  ⟨by decide, is_complete_tour_cases (initState ⟨0⟩) (initState ⟨0⟩) (by decide)⟩

/-- C6: the deviation metric is `(d2 - d1) / d1 * 100`, defined as `0` when
the initial distance is `0`; distances `10` and `13` give `30`, and the
route distance is `max(0, len - 1)`. -/
theorem deviation_cases :
    (∀ d1 d2 : Int, deviation d1 d2
      = if d1 = 0 then 0 else (((d2 : ℚ) - (d1 : ℚ)) / (d1 : ℚ)) * 100) ∧
    deviation 10 13 = 30 ∧
    (∀ d2 : Int, deviation 0 d2 = 0) ∧
    (∀ r : List Coord, route_distance r = max 0 ((r.length : Int) - 1)) := by
  refine ⟨?_, ?_, ?_, fun r => rfl⟩
  · intro d1 d2
    by_cases h : d1 = 0
    · simp [deviation, h]
    · simp only [deviation, h, if_false, if_true, ne_eq, not_false_iff]
      push_cast
      ring
  · norm_num [deviation]
  · intro d2; simp [deviation]

/-- C8: resetting the route always yields route `[warehouse]` and an empty
visited set, and changes nothing else (phase, closed edges, warehouse,
retailers and the recorded distances are untouched). -/
theorem reset_cases (s : PuzzleState) :
    reset s = { s with route := [s.warehouse], visited := ∅ } ∧
    (reset s).route = [s.warehouse] ∧ (reset s).visited = ∅ ∧
    (reset s).phase = s.phase ∧ (reset s).closed = s.closed ∧
    (reset s).warehouse = s.warehouse ∧ (reset s).retailers = s.retailers ∧
    (reset s).initialDist = s.initialDist ∧ (reset s).rerouteDist = s.rerouteDist :=
  ⟨rfl, rfl, rfl, rfl, rfl, rfl, rfl, rfl, rfl⟩

/-- C9: every generated problem instance has the warehouse at the grid
centre `(2, 2) = (GRID // 2, GRID // 2)` and a demand set of exactly 12
distinct in-bounds cells not containing the warehouse. -/
theorem init_problem_wellformed (r : Rng) :
    (init_problem r).1.1 = ((2 : Int), (2 : Int)) ∧
    ((init_problem r).1.2).toFinset.card = NUM_RETAILERS ∧
    (init_problem r).1.1 ∉ (init_problem r).1.2 ∧
    ∀ c ∈ (init_problem r).1.2, inBounds c := by
  obtain ⟨hp1, hp2, hp3, hp4, hp5⟩ := init_problem_props r
  exact ⟨hp1, by rw [List.toFinset_card_of_nodup hp3, hp2], hp4, hp5⟩

theorem undo_append (s : PuzzleState) (nxt : Coord) (h0 : s.route ≠ [])
    (h1 : s.visited = (s.route.filter (fun c => decide (c ∈ s.retailers))).toFinset) :
    undo { s with
      route := s.route ++ [nxt]
      visited := if nxt ∈ s.retailers then insert nxt s.visited else s.visited } = s := by
  have hlen : 1 < (s.route ++ [nxt]).length := by
    rw [List.length_append]
    have := List.length_pos.mpr h0
    simp only [List.length_singleton]
    omega
  have hstep : undo { s with
      route := s.route ++ [nxt]
      visited := if nxt ∈ s.retailers then insert nxt s.visited else s.visited }
    = { s with
        route := (s.route ++ [nxt]).dropLast
        visited := (((s.route ++ [nxt]).dropLast).filter
          (fun c => decide (c ∈ s.retailers))).toFinset } := if_pos hlen
  rw [hstep, List.dropLast_concat, ← h1]

/-- C5: when a move succeeds, an immediate undo restores the previous state
exactly (the popped cell disappears and the visited set is recomputed from
the remaining route); undo on a depot-only route is a no-op. -/
theorem undo_inverse (s s2 t : PuzzleState) (d : Direction)
    (h0 : s.route ≠ [])
    (h1 : s.visited = (s.route.filter (fun c => decide (c ∈ s.retailers))).toFinset)
    (h2 : attempt_move s (offset d).1 (offset d).2 = Except.ok s2) :
    undo s2 = s ∧
    undo { t with route := [t.warehouse] } = { t with route := [t.warehouse] } := by
  refine ⟨?_, if_neg (by simp)⟩
  rw [attempt_move_eq] at h2
  by_cases hb : inBounds ((current s).1 + (offset d).1, (current s).2 + (offset d).2)
  · rw [if_neg (not_not_intro hb)] at h2
    by_cases hc : s.phase = Phase.reroute ∧
        edge (current s) ((current s).1 + (offset d).1, (current s).2 + (offset d).2)
          ∈ s.closed
    · rw [if_pos hc] at h2
      exact absurd h2 (by simp)
    · rw [if_neg hc] at h2
      injection h2 with h2'
      rw [← h2']
      exact undo_append s _ h0 h1
  · rw [if_pos hb] at h2
    exact absurd h2 (by simp)

theorem undo_inverse_witness :
    undo (step (initState ⟨0⟩) (Action.move Direction.up)) = initState ⟨0⟩ ∧
    undo { initState ⟨0⟩ with route := [(initState ⟨0⟩).warehouse] }
      = { initState ⟨0⟩ with route := [(initState ⟨0⟩).warehouse] } :=
  undo_inverse (initState ⟨0⟩) (step (initState ⟨0⟩) (Action.move Direction.up))
    (initState ⟨0⟩) Direction.up (by decide) (by decide) rfl

/-- C2: on a route with at least two distinct traversed edges,
`make_closures` succeeds and returns exactly
`min(4, max(2, u // 5))` pairwise-distinct edges, each of which was
actually traversed by the route. -/
theorem make_closures_spec (route : List Coord) (r : Rng)
    (h : 2 ≤ (dedupFirst (edgesOf route)).length) :
    ∃ cl r2, make_closures r route = some (cl, r2) ∧
      cl.card = min 4 (max 2 ((dedupFirst (edgesOf route)).length / 5)) ∧
      cl ⊆ (edgesOf route).toFinset := by
  have hk : min 4 (max 2 ((dedupFirst (edgesOf route)).length / 5))
      ≤ (dedupFirst (edgesOf route)).length := by omega
  have hsam := sample_eq_some r (dedupFirst (edgesOf route))
    (min 4 (max 2 ((dedupFirst (edgesOf route)).length / 5))) hk
  have hspec := sampleAux_spec (min 4 (max 2 ((dedupFirst (edgesOf route)).length / 5)))
    r (dedupFirst (edgesOf route)) (nodup_dedupFirst _) hk
  refine ⟨((sampleAux r (dedupFirst (edgesOf route))
      (min 4 (max 2 ((dedupFirst (edgesOf route)).length / 5)))).1).toFinset,
    (sampleAux r (dedupFirst (edgesOf route))
      (min 4 (max 2 ((dedupFirst (edgesOf route)).length / 5)))).2, ?_, ?_, ?_⟩
  · simp only [make_closures]
    rw [hsam]
  · rw [List.toFinset_card_of_nodup hspec.2.1, hspec.1]
  · intro x hx
    rw [List.mem_toFinset] at hx
    rw [List.mem_toFinset]
    exact (mem_dedupFirst _ _).mp (hspec.2.2 x hx)

theorem make_closures_spec_witness :
    2 ≤ (dedupFirst (edgesOf demoSmallRoute)).length ∧
    (∃ cl r2, make_closures ⟨0⟩ demoSmallRoute = some (cl, r2) ∧
      cl.card = min 4 (max 2 ((dedupFirst (edgesOf demoSmallRoute)).length / 5)) ∧
      cl ⊆ (edgesOf demoSmallRoute).toFinset) :=
  ⟨by decide, make_closures_spec demoSmallRoute ⟨0⟩ (by decide)⟩

/-- C7: the problem generator is deterministic — it re-applies the fixed
seed 42 on every call, so any two calls return the identical depot and
demand set, and consequently a "new problem" request reproduces exactly
the previous instance's depot and demand set. -/
theorem new_problem_deterministic (r1 r2 : Rng) (s : PuzzleState)
    (hw : s.warehouse = (init_problem r1).1.1)
    (hr : s.retailers = (init_problem r1).1.2)
    (hc : is_complete_tour s = true)
    (hp : s.phase = Phase.reroute) :
    (init_problem r1).1 = (init_problem r2).1 ∧
    (step s Action.newProblem).warehouse = s.warehouse ∧
    (step s Action.newProblem).retailers = s.retailers := by
  have hdet : init_problem r1 = init_problem r2 := rfl
  have hguard : is_complete_tour s = true ∧ s.phase = Phase.reroute := ⟨hc, hp⟩
  have hstep : step s Action.newProblem
      = { warehouse := (init_problem s.rng).1.1, retailers := (init_problem s.rng).1.2,
          route := [(init_problem s.rng).1.1], visited := ∅,
          phase := Phase.initial, closed := ∅, initialDist := none, rerouteDist := none,
          rng := (init_problem s.rng).2 } := by
    show (if is_complete_tour s = true ∧ s.phase = Phase.reroute then _ else s) = _
    rw [if_pos hguard]
  refine ⟨by rw [hdet], ?_, ?_⟩
  · rw [hstep, hw]
    show (init_problem s.rng).1.1 = (init_problem r1).1.1
    rfl
  · rw [hstep, hr]
    show (init_problem s.rng).1.2 = (init_problem r1).1.2
    rfl

theorem new_problem_deterministic_witness :
    rerouteDoneState.warehouse = (init_problem ⟨0⟩).1.1 ∧
    rerouteDoneState.retailers = (init_problem ⟨0⟩).1.2 ∧
    is_complete_tour rerouteDoneState = true ∧
    rerouteDoneState.phase = Phase.reroute ∧
    ((init_problem ⟨0⟩).1 = (init_problem ⟨1⟩).1 ∧
      (step rerouteDoneState Action.newProblem).warehouse = rerouteDoneState.warehouse ∧
      (step rerouteDoneState Action.newProblem).retailers = rerouteDoneState.retailers) :=
  ⟨rfl, rfl, by decide, rfl,
    new_problem_deterministic ⟨0⟩ ⟨1⟩ rerouteDoneState rfl rfl (by decide) rfl⟩

/-- C3: in every state reachable from a fresh session by any sequence of
user actions, the visited set equals the retailers on the route (hence is
contained in the demand set), the route starts at the warehouse, its
consecutive cells are grid-adjacent and in bounds, and during the reroute
phase no traversed edge is closed. -/
theorem runGame_invariants (r : Rng) (acts : List Action) :
    (runGame r acts).visited =
      ((runGame r acts).route.filter
        (fun c => decide (c ∈ (runGame r acts).retailers))).toFinset ∧
    (runGame r acts).visited ⊆ ((runGame r acts).retailers).toFinset ∧
    (runGame r acts).route.head? = some (runGame r acts).warehouse ∧
    List.Chain' (fun a b => adjacent a b ∧ inBounds a ∧ inBounds b) (runGame r acts).route ∧
    ((runGame r acts).phase = Phase.initial ∨
      List.Chain' (fun a b => edge a b ∉ (runGame r acts).closed) (runGame r acts).route) := by
  obtain ⟨h1, h2, h3, h4, h5, h6, h7⟩ := invAll_runGame r acts
  refine ⟨h1, ?_, h2, h3, h4⟩
  intro x hx
  rw [h1, List.mem_toFinset] at hx
  rw [List.mem_toFinset]
  have := List.mem_filter.mp hx
  exact of_decide_eq_true this.2

/-- C10: a completed tour (12 retailers visited with the visited set
derived from the route, back at the warehouse, more than one node) always
traverses at least 2 distinct edges, so the closure count
`k = min(4, max(2, u // 5))` never exceeds the number `u` of distinct
edges and `make_closures` cannot hit its sample-larger-than-population
error. -/
theorem complete_tour_closures (s : PuzzleState)
    (hInv : s.visited = (s.route.filter (fun c => decide (c ∈ s.retailers))).toFinset)
    (hc : is_complete_tour s = true) :
    2 ≤ (dedupFirst (edgesOf s.route)).length ∧
    min 4 (max 2 ((dedupFirst (edgesOf s.route)).length / 5))
      ≤ (dedupFirst (edgesOf s.route)).length ∧
    (make_closures s.rng s.route).isSome = true := by
  obtain ⟨hcard, hcur, hlen⟩ := is_complete_tour_iff.mp hc
  obtain ⟨a, l, hroute⟩ : ∃ a l, s.route = a :: l := by
    cases hr : s.route with
    | nil => rw [hr] at hlen; simp at hlen
    | cons a l => exact ⟨a, l, rfl⟩
  have hsub1 : s.visited ⊆ s.route.toFinset := by
    rw [hInv]
    intro x hx
    rw [List.mem_toFinset] at hx
    rw [List.mem_toFinset]
    exact List.mem_of_mem_filter hx
  have hsub2 : s.route.toFinset ⊆ insert a (endpointFinset (edgesOf s.route)) := by
    rw [hroute]
    exact route_toFinset_subset a l
  have hcard2 : NUM_RETAILERS ≤ (insert a (endpointFinset (edgesOf s.route))).card := by
    rw [← hcard]
    exact Finset.card_le_card (hsub1.trans hsub2)
  have hcard3 : (insert a (endpointFinset (edgesOf s.route))).card
      ≤ 1 + (endpointFinset (edgesOf s.route)).card := by
    have := Finset.card_insert_le a (endpointFinset (edgesOf s.route))
    omega
  have hcard4 : (endpointFinset (edgesOf s.route)).card
      ≤ 2 * (dedupFirst (edgesOf s.route)).length := by
    rw [endpointFinset_dedupFirst]
    exact card_endpointFinset_le _
  have h12 : NUM_RETAILERS = 12 := rfl
  rw [h12] at hcard2
  have hu : 2 ≤ (dedupFirst (edgesOf s.route)).length := by omega
  have hk : min 4 (max 2 ((dedupFirst (edgesOf s.route)).length / 5))
      ≤ (dedupFirst (edgesOf s.route)).length := by omega
  refine ⟨hu, hk, ?_⟩
  simp only [make_closures]
  rw [sample_eq_some _ _ _ hk]
  rfl

theorem complete_tour_closures_witness :
    demoState.visited = (demoState.route.filter
      (fun c => decide (c ∈ demoState.retailers))).toFinset ∧
    is_complete_tour demoState = true ∧
    (2 ≤ (dedupFirst (edgesOf demoState.route)).length ∧
      min 4 (max 2 ((dedupFirst (edgesOf demoState.route)).length / 5))
        ≤ (dedupFirst (edgesOf demoState.route)).length ∧
      (make_closures demoState.rng demoState.route).isSome = true) :=
  ⟨rfl, by decide, complete_tour_closures demoState rfl (by decide)⟩

end SCM
